import Mathlib

/-!
# Verification of the subdomain-bruteforce engine

A shallow embedding, in Lean 4, of `src/subdomain_bruteforce.py`:

* the pure helper functions of `Controller` (`get_words_from_file`,
  `generate_word`, `current_status`) and `Model.check_domain` are embedded
  as Lean functions (Python exceptions become `Except`);
* the concurrent engine (`Model.bruteforce`, the per-candidate checker
  threads, `thread_limiter`, the `dns_working` gate and the completion
  protocol) is embedded as a labelled transition system: one dispatcher
  program counter mirroring the lines of `Model.bruteforce`, a list of
  dispatched attempts each of which may finish at any interleaving point,
  and an environment step flipping the health gate (modelling
  `Model.dns_checker`, whose outcome depends on the network).

Theorems about these definitions settle the specification's claims about
candidate generation, the file word source, aggregation idempotence, the
status snapshot, the thread cap, the health gate and the completion
barrier.
-/

/-! ## Python string helpers

`line.strip(" \n")` removes the characters `' '` and `'\n'` from both ends
of a string. -/

/-- A character stripped by `.strip(" \n")`. -/
def isStripChar (c : Char) : Bool :=
  c == ' ' || c == '\n'

/-- Embedding of Python `s.strip(" \n")`. -/
def pyStrip (s : String) : String :=
  String.mk ((((s.toList.dropWhile isStripChar).reverse).dropWhile isStripChar).reverse)

/-! ## `Controller.get_words_from_file` (lines 173–187)

The file is modelled by the list of its lines, as produced by Python's
line iteration (each line possibly carrying its trailing newline).  The
loop keeps a `found` flag: it is raised when the stripped line equals
`start_from`, and a line is yielded when `start_from` is `None` or the
flag is already raised (the raising happens before the yield test, so the
matching line itself is yielded). -/

/-- The loop body of `get_words_from_file`: `found` is the mutable flag. -/
def get_words_loop (start_from : Option String) : List String → Bool → List String
  | [], _ => []
  | line :: rest, found =>
    let word := pyStrip line
    let found' := found || (some word == start_from)
    if start_from.isNone || found' then
      word :: get_words_loop start_from rest found'
    else
      get_words_loop start_from rest found'

/-- Embedding of `Controller.get_words_from_file`. -/
def get_words_from_file (lines : List String) (start_from : Option String) : List String :=
  get_words_loop start_from lines false

/-! ## `Controller.generate_word` (lines 189–203)

For each position `i < letter_count` the code tries `start_from[i]`: if the
index is out of range (`IndexError`) the whole alphabet is used; otherwise
the alphabet is cut at the first occurrence of that character —
`alphabet.index(first)` raises `ValueError` when the character does not
occur, and that exception is *not* caught, so it escapes `generate_word`
at call time, before any word is produced.  The words are the
`itertools.product` of the per-position character lists, joined. -/

/-- Python's `string.ascii_lowercase`. -/
def ascii_lowercase : String :=
  "abcdefghijklmnopqrstuvwxyz"

/-- Embedding of Python `str.index` restricted to single characters:
the index of the first occurrence, `none` when absent (`ValueError`). -/
def strIndex (c : Char) : List Char → Option Nat
  | [] => none
  | x :: xs => if x = c then some 0 else (strIndex c xs).map (· + 1)

/-- The `letters` list built by the `for i in range(letter_count)` loop of
`generate_word`; `Except.error c` models the uncaught `ValueError` raised
by `alphabet.index` on the character `c`. -/
def genLetters (letter_count : Nat) (start_from : List Char) (alphabet : List Char) :
    Except Char (List (List Char)) :=
  (List.range letter_count).mapM fun i =>
    if h : i < start_from.length then
      match strIndex (start_from.get ⟨i, h⟩) alphabet with
      | some k => Except.ok (alphabet.drop k)
      | none => Except.error (start_from.get ⟨i, h⟩)
    else
      Except.ok alphabet

/-- Embedding of `itertools.product` on lists of characters: all choice
sequences, rightmost position varying fastest. -/
def itertoolsProduct : List (List Char) → List (List Char)
  | [] => [[]]
  | xs :: rest => xs.flatMap fun x => (itertoolsProduct rest).map (x :: ·)

/-- Embedding of `Controller.generate_word`: the (finite) sequence the
returned generator yields, or the construction-time error. -/
def generate_word (letter_count : Nat) (start_from : String := "")
    (alphabet : String := ascii_lowercase) : Except Char (List String) :=
  (genLetters letter_count start_from.toList alphabet.toList).map fun letters =>
    (itertoolsProduct letters).map fun comb => String.mk comb

/-! ## `Model.check_domain` (lines 51–57)

The aggregation state is the pair of the `found_subdomains` set and the
list of `view.found_subdomain` notifications emitted so far (in order).
DNS resolution (`Model.domain_exists`) is an oracle `ex : String → Bool`.
When the domain resolves it is added to the set and the view is notified —
unconditionally, whether or not the domain was already in the set. -/

/-- Embedding of `Model.check_domain` as a transformer of
(`found_subdomains`, emitted found-notifications). -/
def check_domain (ex : String → Bool) (st : Finset String × List String) (domain : String) :
    Finset String × List String :=
  if ex domain then (insert domain st.1, st.2 ++ [domain]) else st

/-! ## `Controller.current_status` (lines 147–156)

Elapsed time is modelled as an exact rational number of seconds
(`timedelta` is exact microseconds, and `total_seconds()` is exact for the
relevant zero test).  Python `/` raises `ZeroDivisionError` when the
divisor is zero, and line 154 performs `count / elapsed` with no guard.
Python 3's `round` rounds half to even. -/

/-- The error raised by Python `/` on a zero divisor. -/
inductive PyError where
  | zeroDivisionError
deriving DecidableEq, Repr

/-- Embedding of Python division: `ZeroDivisionError` on a zero divisor. -/
def pyDiv (a b : ℚ) : Except PyError ℚ :=
  if b = 0 then Except.error PyError.zeroDivisionError else Except.ok (a / b)

/-- Embedding of Python 3 `round` (round half to even) to an integer. -/
def pyRound (q : ℚ) : ℤ :=
  let f := ⌊q⌋
  let r := q - f
  if r < 1/2 then f
  else if r > 1/2 then f + 1
  else if f % 2 = 0 then f else f + 1

/-- The dictionary returned by `Controller.current_status`. -/
structure Status where
  time : ℚ
  latest : Option String
  count : ℕ
  rate : ℤ
  threads : ℕ
deriving DecidableEq, Repr

/-- Embedding of `Controller.current_status`, as a function of the model
fields it reads and the elapsed time; the unguarded division makes the
result fallible. -/
def current_status (count : ℕ) (latest : Option String) (threadCount : ℕ) (elapsed : ℚ) :
    Except PyError Status :=
  (pyDiv (count : ℚ) elapsed).map fun q =>
    { time := elapsed, latest := latest, count := count, rate := pyRound q,
      threads := threadCount }

/-! ## The bounded concurrent resolution engine (lines 11–109)

`Model.bruteforce`, the per-candidate `check_domain` threads, the
`thread_limiter` pruning loop, the `dns_working` event gate maintained by
`Model.dns_checker`, and the completion protocol are embedded as a
labelled transition system.

* The dispatcher (the body of `Model.bruteforce`) is a program counter
  walking through the lines of the loop: wait on the gate (line 92),
  start the checker thread and add it to `subdomain_threads` (line 97),
  run `thread_limiter` (line 98: pop an arbitrary member of the set, then
  block until it terminates, while the set is over the limit), update
  `latest` and `checked_subdomains_count` (lines 100–101); after the loop,
  join every remaining thread (lines 104–105), set `complete_bruteforcing`
  (line 107) and call `view.completed` (line 109).
* Each dispatched attempt is an `Attempt`: it runs from the moment its
  thread is started and may finish at any interleaving point, at which
  moment it performs `check_domain` (resolution outcome given by the
  oracle `EngineConfig.ex`) atomically: insert into `found_subdomains`
  and notify the view.
* `Model.dns_checker` runs concurrently and its probes depend on the
  network, so the health gate is modelled by an environment step that may
  set or clear `dns_working` at any time.  It starts cleared
  (`dns_not_working.set()` in `__init__`, line 26).
* Observer callbacks are recorded in an event list: `view.found_subdomain`
  calls and the final `view.completed` call with the result set passed to
  it. -/

/-- One dispatched resolution attempt: the subdomain it checks, whether
its thread has terminated, and whether it is still a member of
`subdomain_threads`. -/
structure Attempt where
  word : String
  finished : Bool
  inSet : Bool
deriving DecidableEq, Repr

/-- An observer callback, recorded in emission order. -/
inductive Event where
  | foundNotif (domain : String)
  | completed (results : Finset String)
deriving DecidableEq

/-- The dispatcher's program counter through `Model.bruteforce`.  The
current word and the remaining words are carried along. -/
inductive PC where
  | gate (w : String) (ws : List String)
  | dispatch (w : String) (ws : List String)
  | limit (w : String) (ws : List String)
  | limitJoin (t : Nat) (w : String) (ws : List String)
  | record (w : String) (ws : List String)
  | drain
  | setFlag
  | callback
  | done
deriving DecidableEq, Repr

/-- Engine construction parameters: the base domain, `thread_limit`, and
the DNS-resolution oracle (`Model.domain_exists` for candidates). -/
structure EngineConfig where
  base : String
  thread_limit : Nat
  ex : String → Bool

/-- The shared state of a run: dispatcher position, the `dns_working`
gate, the dispatched attempts, `found_subdomains`,
`checked_subdomains_count`, `latest`, `complete_bruteforcing`, and the
emitted observer events. -/
structure EngineState where
  pc : PC
  health : Bool
  attempts : List Attempt
  found : Finset String
  count : Nat
  latest : Option String
  flag : Bool
  events : List Event

/-- Placeholder attempt used as the `getD` default; never reachable under
an in-bounds index. -/
def defaultAttempt : Attempt :=
  ⟨"", true, false⟩

/-- Line 94: `f"{word}.{self.base_domain}".strip(" \n")`. -/
def mkSubdomain (cfg : EngineConfig) (w : String) : String :=
  pyStrip (w ++ "." ++ cfg.base)

/-- The attempt with dispatch index `i`. -/
def attemptAt (s : EngineState) (i : Nat) : Attempt :=
  s.attempts.getD i defaultAttempt

/-- `len(self.subdomain_threads)`: attempts not yet popped by
`thread_limiter`. -/
def threadSetSize (s : EngineState) : Nat :=
  s.attempts.countP (fun a => a.inSet)

/-- The number of in-flight attempts: dispatched threads that have not
terminated. -/
def inFlight (s : EngineState) : Nat :=
  s.attempts.countP (fun a => !a.finished)

/-- The number of candidates dispatched so far. -/
def dispatchedCount (s : EngineState) : Nat :=
  s.attempts.length

/-- `self.subdomain_threads.pop()`: remove attempt `t` from the set. -/
def popAttempt (s : EngineState) (t : Nat) : List Attempt :=
  s.attempts.set t { attemptAt s t with inSet := false }

/-- Termination of attempt `i`'s thread: the body of `check_domain` runs
(lines 51–57) and the thread finishes. -/
def finishAttempt (cfg : EngineConfig) (s : EngineState) (i : Nat) : EngineState :=
  let a := attemptAt s i
  let r := check_domain cfg.ex (s.found, []) a.word
  { s with attempts := s.attempts.set i { a with finished := true },
           found := r.1,
           events := s.events ++ r.2.map Event.foundNotif }

/-- Where the dispatcher goes after finishing a loop iteration: the next
iteration's gate, or the post-loop drain. -/
def nextIterPC : List String → PC
  | [] => PC.drain
  | w :: ws => PC.gate w ws

/-- Transition labels. -/
inductive Label where
  | envHealth (b : Bool)
  | gatePass
  | startThread
  | popThread (t : Nat)
  | limitJoined
  | limitDone
  | recordStep
  | drainDone
  | setFlagStep
  | callbackStep
  | finish (i : Nat)
deriving DecidableEq, Repr

/-- One interleaving step of the engine.

* `envHealth`: `dns_checker` publishes a probe outcome (lines 76–82).
* `gatePass`: `dns_working.wait()` returns — only possible while the
  event is set (line 92).
* `startThread`: line 97, the checker thread starts (in-flight from now)
  and joins `subdomain_threads`.
* `popThread` / `limitJoined` / `limitDone`: `thread_limiter` (lines
  59–67): while the set is over `thread_limit`, pop an arbitrary member,
  then block until that thread has terminated.
* `recordStep`: lines 100–101, `latest` and the counter are updated.
* `drainDone`: lines 104–105, the final joins return once every thread
  still in the set has terminated (popped threads were already joined).
* `setFlagStep` / `callbackStep`: lines 107–109.
* `finish`: a running attempt terminates, performing `check_domain`. -/
inductive Step (cfg : EngineConfig) : EngineState → Label → EngineState → Prop where
  | envHealth (s : EngineState) (b : Bool) :
      Step cfg s (Label.envHealth b) { s with health := b }
  | gatePass (s : EngineState) (w : String) (ws : List String) :
      s.pc = PC.gate w ws → s.health = true →
      Step cfg s Label.gatePass { s with pc := PC.dispatch w ws }
  | startThread (s : EngineState) (w : String) (ws : List String) :
      s.pc = PC.dispatch w ws →
      Step cfg s Label.startThread
        { s with pc := PC.limit w ws,
                 attempts := s.attempts ++ [⟨mkSubdomain cfg w, false, true⟩] }
  | popThread (s : EngineState) (t : Nat) (w : String) (ws : List String) :
      s.pc = PC.limit w ws → cfg.thread_limit < threadSetSize s →
      t < s.attempts.length → (attemptAt s t).inSet = true →
      Step cfg s (Label.popThread t)
        { s with pc := PC.limitJoin t w ws, attempts := popAttempt s t }
  | limitJoined (s : EngineState) (t : Nat) (w : String) (ws : List String) :
      s.pc = PC.limitJoin t w ws → (attemptAt s t).finished = true →
      Step cfg s Label.limitJoined { s with pc := PC.limit w ws }
  | limitDone (s : EngineState) (w : String) (ws : List String) :
      s.pc = PC.limit w ws → threadSetSize s ≤ cfg.thread_limit →
      Step cfg s Label.limitDone { s with pc := PC.record w ws }
  | recordStep (s : EngineState) (w : String) (ws : List String) :
      s.pc = PC.record w ws →
      Step cfg s Label.recordStep
        { s with pc := nextIterPC ws, latest := some (mkSubdomain cfg w),
                 count := s.count + 1 }
  | drainDone (s : EngineState) :
      s.pc = PC.drain →
      (∀ a ∈ s.attempts, a.inSet = true → a.finished = true) →
      Step cfg s Label.drainDone { s with pc := PC.setFlag }
  | setFlagStep (s : EngineState) :
      s.pc = PC.setFlag →
      Step cfg s Label.setFlagStep { s with pc := PC.callback, flag := true }
  | callbackStep (s : EngineState) :
      s.pc = PC.callback →
      Step cfg s Label.callbackStep
        { s with pc := PC.done, events := s.events ++ [Event.completed s.found] }
  | finishStep (s : EngineState) (i : Nat) :
      i < s.attempts.length → (attemptAt s i).finished = false →
      Step cfg s (Label.finish i) (finishAttempt cfg s i)

/-- The state right after `Model.__init__`: nothing dispatched, counters
zero, `dns_not_working` set (health starts false), no events. -/
def initState (words : List String) : EngineState :=
  { pc := nextIterPC words, health := false, attempts := [], found := ∅,
    count := 0, latest := none, flag := false, events := [] }

/-- Reachability from the initial state of a run. -/
inductive Reach (cfg : EngineConfig) (words : List String) : EngineState → Prop where
  | init : Reach cfg words (initState words)
  | step {s s' : EngineState} {l : Label} :
      Reach cfg words s → Step cfg s l s' → Reach cfg words s'

/-- Program counters strictly between a candidate's dispatch and its
counter increment (lines 97–101 of the loop body). -/
def pcMid : PC → Bool
  | PC.limit _ _ => true
  | PC.limitJoin _ _ _ => true
  | PC.record _ _ => true
  | _ => false

/-- The inductive invariant of the engine. -/
structure EngineInv (cfg : EngineConfig) (s : EngineState) : Prop where
  ts_le : (∀ w ws, s.pc ≠ PC.limit w ws) → threadSetSize s ≤ cfg.thread_limit
  ts_limit : ∀ w ws, s.pc = PC.limit w ws → threadSetSize s ≤ cfg.thread_limit + 1
  popped : ∀ i, i < s.attempts.length → (attemptAt s i).inSet = false →
      (attemptAt s i).finished = true ∨ ∃ w ws, s.pc = PC.limitJoin i w ws
  terminal : (s.pc = PC.setFlag ∨ s.pc = PC.callback ∨ s.pc = PC.done) →
      ∀ a ∈ s.attempts, a.finished = true
  flag_iff : s.flag = true ↔ (s.pc = PC.callback ∨ s.pc = PC.done)
  count_eq : pcMid s.pc = false → s.count = s.attempts.length
  count_mid : pcMid s.pc = true → s.attempts.length = s.count + 1
  ev_no : s.pc ≠ PC.done → ∀ e ∈ s.events, ∃ d, e = Event.foundNotif d
  ev_done : s.pc = PC.done → ∃ pre, s.events = pre ++ [Event.completed s.found] ∧
      ∀ e ∈ pre, ∃ d, e = Event.foundNotif d

/-! Concrete configurations and runs used to witness or refute claims. -/

/-- A configuration where no candidate resolves. -/
def cfgNone : EngineConfig :=
  ⟨"example.com", 100, fun _ => false⟩

/-- A configuration where every candidate resolves. -/
def cfgAll : EngineConfig :=
  ⟨"example.com", 100, fun _ => true⟩

/-- A configuration with `thread_limit = 1`. -/
def cfgTwo : EngineConfig :=
  ⟨"example.com", 1, fun _ => false⟩

/-- State reached right after the first candidate's thread is started:
one candidate dispatched, counter still zero. -/
def c4State : EngineState :=
  { pc := PC.limit ("maps") [], health := true,
    attempts := [⟨"maps.example.com", false, true⟩],
    found := ∅, count := 0, latest := none, flag := false, events := [] }

/-- State of a `thread_limit = 1` run right after the second candidate's
thread is started while the first is still running: two in-flight
attempts. -/
def c2State : EngineState :=
  { pc := PC.limit ("b") [], health := true,
    attempts := [⟨"a.example.com", false, true⟩, ⟨"b.example.com", false, true⟩],
    found := ∅, count := 1, latest := some ("a.example.com"), flag := false,
    events := [] }

/-- Terminal state of a completed one-candidate run in which the
candidate resolved. -/
def c1Done : EngineState :=
  { pc := PC.done, health := true,
    attempts := [⟨"maps.example.com", true, true⟩],
    found := {"maps.example.com"}, count := 1, latest := some ("maps.example.com"),
    flag := true,
    events := [Event.foundNotif ("maps.example.com"),
               Event.completed {"maps.example.com"}] }

/-- State where the dispatcher has already passed the gate but
`dns_checker` has since cleared `dns_working`. -/
def c5Unhealthy : EngineState :=
  { pc := PC.dispatch ("maps") [], health := false, attempts := [], found := ∅,
    count := 0, latest := none, flag := false, events := [] }

/-- The state after dispatching from `c5Unhealthy`. -/
def c5After : EngineState :=
  { pc := PC.limit ("maps") [], health := false,
    attempts := [⟨"maps.example.com", false, true⟩],
    found := ∅, count := 0, latest := none, flag := false, events := [] }

/-! ## General list lemmas -/

/-- `getD` after `set` at the written index. -/
theorem getD_set_self {α : Type} (l : List α) (i : Nat) (a d : α) (h : i < l.length) :
    (l.set i a).getD i d = a := by
  rw [List.getD_eq_getElem?_getD, List.getElem?_set]
  simp [h]

/-- `getD` after `set` at another index. -/
theorem getD_set_ne {α : Type} (l : List α) {i j : Nat} (a d : α) (h : i ≠ j) :
    (l.set i a).getD j d = l.getD j d := by
  rw [List.getD_eq_getElem?_getD, List.getElem?_set, if_neg h, ← List.getD_eq_getElem?_getD]

/-- `getD` after appending one element, at an old index. -/
theorem getD_concat_left {α : Type} (l : List α) {i : Nat} (x d : α) (h : i < l.length) :
    (l ++ [x]).getD i d = l.getD i d := by
  rw [List.getD_eq_getElem?_getD, List.getElem?_append, if_pos h, ← List.getD_eq_getElem?_getD]

/-- `getD` after appending one element, at the new index. -/
theorem getD_concat_self {α : Type} (l : List α) (x d : α) :
    (l ++ [x]).getD l.length d = x := by
  rw [List.getD_eq_getElem?_getD, List.getElem?_concat_length]
  rfl

/-- Splitting a list at an in-bounds index. -/
theorem eq_take_cons_drop {α : Type} (l : List α) (i : Nat) (d : α) (h : i < l.length) :
    l = l.take i ++ l.getD i d :: l.drop (i + 1) := by
  rw [List.getD_eq_getElem l d h, List.getElem_cons_drop, List.take_append_drop]

/-- `countP` is unchanged by a `set` that preserves the predicate value. -/
theorem countP_set_of_eq {α : Type} (p : α → Bool) (l : List α) (i : Nat) (a d : α)
    (h : i < l.length) (hp : p a = p (l.getD i d)) :
    (l.set i a).countP p = l.countP p := by
  rw [List.set_eq_take_cons_drop a h]
  conv_rhs => rw [eq_take_cons_drop l i d h]
  simp only [List.countP_append, List.countP_cons, hp]

/-- `countP` drops by one when a `set` turns the predicate from true to
false. -/
theorem countP_set_false {α : Type} (p : α → Bool) (l : List α) (i : Nat) (a d : α)
    (h : i < l.length) (hpa : p a = false) (hpl : p (l.getD i d) = true) :
    (l.set i a).countP p + 1 = l.countP p := by
  rw [List.set_eq_take_cons_drop a h]
  conv_rhs => rw [eq_take_cons_drop l i d h]
  simp only [List.countP_append, List.countP_cons, hpa, hpl]
  simp
  ring

/-- Index-based monotonicity of `countP`. -/
theorem countP_le_of_forall_index {α : Type} (p q : α → Bool) (l : List α)
    (h : ∀ i, (hi : i < l.length) → p l[i] = true → q l[i] = true) :
    l.countP p ≤ l.countP q := by
  apply List.countP_mono_left
  intro x hx hp
  obtain ⟨n, hn, rfl⟩ := List.mem_iff_getElem.mp hx
  exact h n hn hp

/-- Index-based monotonicity of `countP` with one exceptional index. -/
theorem countP_le_of_forall_index_except {α : Type} (p q : α → Bool) (l : List α) (t : Nat)
    (h : ∀ i, (hi : i < l.length) → i ≠ t → p l[i] = true → q l[i] = true) :
    l.countP p ≤ l.countP q + 1 := by
  by_cases ht : t < l.length
  · have hsplit : l = l.take t ++ l[t] :: l.drop (t + 1) := by
      rw [List.getElem_cons_drop, List.take_append_drop]
    conv_lhs => rw [hsplit]
    conv_rhs => rw [hsplit]
    simp only [List.countP_append, List.countP_cons]
    have h1 : (l.take t).countP p ≤ (l.take t).countP q := by
      apply countP_le_of_forall_index
      intro i hi hp
      have hi2 : i < t := by
        have := hi
        simp [List.length_take] at this
        omega
      rw [List.getElem_take] at hp ⊢
      exact h i (by omega) (by omega) hp
    have h2 : (l.drop (t + 1)).countP p ≤ (l.drop (t + 1)).countP q := by
      apply countP_le_of_forall_index
      intro i hi hp
      rw [List.getElem_drop] at hp ⊢
      have hi2 : t + 1 + i < l.length := by
        have := hi
        simp [List.length_drop] at this
        omega
      exact h (t + 1 + i) hi2 (by omega) hp
    have hif : (if p l[t] = true then 1 else 0) ≤ 1 := by
      split <;> omega
    omega
  · apply Nat.le_succ_of_le
    apply countP_le_of_forall_index
    intro i hi hp
    exact h i hi (by omega) hp

/-! ## Lemmas about `itertools.product` and the generator -/

/-- The product enumerates exactly the componentwise choices. -/
theorem itertoolsProduct_length (L : List (List Char)) :
    (itertoolsProduct L).length = (L.map List.length).prod := by
  induction L with
  | nil => rfl
  | cons xs rest ih => simp [itertoolsProduct, Function.comp_def, ih]

/-- Membership in the product is componentwise membership. -/
theorem mem_itertoolsProduct {L : List (List Char)} {l : List Char} :
    l ∈ itertoolsProduct L ↔ List.Forall₂ (· ∈ ·) l L := by
  induction L generalizing l with
  | nil =>
    simp only [itertoolsProduct, List.mem_singleton]
    constructor
    · rintro rfl
      exact List.Forall₂.nil
    · rintro h
      cases h
      rfl
  | cons xs rest ih =>
    simp only [itertoolsProduct, List.mem_flatMap, List.mem_map]
    constructor
    · rintro ⟨x, hx, tl, htl, rfl⟩
      exact List.Forall₂.cons hx (ih.mp htl)
    · rintro h
      cases h with
      | cons hx htl => exact ⟨_, ‹_›, _, ih.mpr htl, rfl⟩

/-- The product is strictly sorted in lexicographic order when every
component list is strictly sorted. -/
theorem itertoolsProduct_sorted (L : List (List Char))
    (h : ∀ xs ∈ L, xs.Pairwise (· < ·)) :
    (itertoolsProduct L).Pairwise (List.Lex (· < ·)) := by
  induction L with
  | nil => simp [itertoolsProduct]
  | cons xs rest ih =>
    have hxs := h xs (List.mem_cons_self _ _)
    have hrest := ih (fun ys hy => h ys (List.mem_cons_of_mem _ hy))
    simp only [itertoolsProduct]
    rw [List.pairwise_flatMap]
    constructor
    · intro x hx
      exact List.Pairwise.map _ (fun a b hab => List.Lex.cons hab) hrest
    · refine List.Pairwise.imp ?_ hxs
      intro a b hab u hu v hv
      simp only [List.mem_map] at hu hv
      obtain ⟨ta, -, rfl⟩ := hu
      obtain ⟨tb, -, rfl⟩ := hv
      exact List.Lex.rel hab

/-- The lowercase alphabet is strictly sorted. -/
theorem ascii_sorted : ascii_lowercase.toList.Pairwise (· < ·) := by
  decide

/-- Lexicographic order on character lists gives the string order. -/
theorem mk_lt_mk_of_lex {a b : List Char} (hab : List.Lex (· < ·) a b) :
    String.mk a < String.mk b := by
  rw [String.lt_iff_toList_lt]
  exact hab

/-- Dropping a prefix preserves strict sortedness. -/
theorem pairwise_drop {l : List Char} {n : Nat} (h : l.Pairwise (· < ·)) :
    (l.drop n).Pairwise (· < ·) :=
  h.sublist (List.drop_sublist n l)

/-- `str.index` fails exactly on absent characters. -/
theorem strIndex_eq_none {c : Char} {l : List Char} (h : c ∉ l) : strIndex c l = none := by
  induction l with
  | nil => rfl
  | cons x xs ih =>
    simp only [List.mem_cons, not_or] at h
    simp [strIndex, Ne.symm h.1, ih h.2]

/-- A `mapM` over `Except` with a surely-failing element fails. -/
theorem mapM_error {α β ε : Type} (l : List α) (f : α → Except ε β)
    (h : ∃ x ∈ l, ∀ b, f x ≠ Except.ok b) : ∃ e, l.mapM f = Except.error e := by
  induction l with
  | nil => simp at h
  | cons y l ih =>
    obtain ⟨x, hx, hbad⟩ := h
    rw [List.mapM_cons]
    match hy : f y with
    | Except.error e => exact ⟨e, rfl⟩
    | Except.ok b =>
      rcases List.mem_cons.mp hx with rfl | hx2
      · exact absurd hy (hbad b)
      · obtain ⟨e, he⟩ := ih ⟨x, hx2, hbad⟩
        refine ⟨e, ?_⟩
        show (l.mapM f >>= fun as => pure (b :: as)) = Except.error e
        rw [he]
        rfl

/-! ## The engine invariant -/

theorem threadSetSize_pop (s : EngineState) {t : Nat} (ht : t < s.attempts.length)
    (hin : (attemptAt s t).inSet = true) :
    (popAttempt s t).countP (fun a => a.inSet) + 1 = threadSetSize s := by
  apply countP_set_false _ _ _ _ defaultAttempt ht rfl
  exact hin

theorem threadSetSize_finish (cfg : EngineConfig) (s : EngineState) {i : Nat}
    (hi : i < s.attempts.length) :
    threadSetSize (finishAttempt cfg s i) = threadSetSize s := by
  show List.countP _ (s.attempts.set i _) = _
  apply countP_set_of_eq _ _ _ _ defaultAttempt hi
  rfl

theorem inv_init (cfg : EngineConfig) (words : List String) : EngineInv cfg (initState words) := by
  constructor <;> cases words <;> simp [initState, nextIterPC, threadSetSize, attemptAt, pcMid]

theorem inv_step {cfg : EngineConfig} {s s' : EngineState} {l : Label}
    (hinv : EngineInv cfg s) (hstep : Step cfg s l s') : EngineInv cfg s' := by
  obtain ⟨ts_le, ts_limit, popped, terminal, flag_iff, count_eq, count_mid, ev_no, ev_done⟩ :=
    hinv
  cases hstep with
  | envHealth b =>
    exact ⟨ts_le, ts_limit, popped, terminal, flag_iff, count_eq, count_mid, ev_no, ev_done⟩
  | gatePass w ws h hh =>
    rw [h] at ts_le ts_limit popped terminal flag_iff count_eq count_mid ev_no ev_done
    simp at flag_iff
    refine ⟨?_, ?_, ?_, ?_, ?_, ?_, ?_, ?_, ?_⟩
    · exact fun _ => ts_le (by simp)
    · intro w' ws' hne
      simp at hne
    · intro i hi hin
      rcases popped i hi hin with hf | ⟨w', ws', hpc⟩
      · exact Or.inl hf
      · simp at hpc
    · intro hterm
      simp at hterm
    · simp [flag_iff]
    · exact fun _ => count_eq rfl
    · intro hmid
      simp [pcMid] at hmid
    · exact fun _ => ev_no (by simp)
    · intro hd
      simp at hd
  | startThread w ws h =>
    rw [h] at ts_le ts_limit popped terminal flag_iff count_eq count_mid ev_no ev_done
    simp at flag_iff
    have hts : List.countP (fun a => a.inSet) s.attempts ≤ cfg.thread_limit := ts_le (by simp)
    have hcnt : s.count = s.attempts.length := count_eq rfl
    refine ⟨?_, ?_, ?_, ?_, ?_, ?_, ?_, ?_, ?_⟩
    · intro hne
      exact absurd rfl (hne w ws)
    · intro w' ws' _
      show (s.attempts ++ [_]).countP _ ≤ _
      rw [List.countP_append]
      have h1 : List.countP (fun a => a.inSet) [(⟨mkSubdomain cfg w, false, true⟩ : Attempt)]
          = 1 := rfl
      omega
    · intro i hi hin
      by_cases hilt : i < s.attempts.length
      · have heq : (s.attempts ++ [(⟨mkSubdomain cfg w, false, true⟩ : Attempt)]).getD i
            defaultAttempt = attemptAt s i := getD_concat_left _ _ _ hilt
        replace hin : (attemptAt s i).inSet = false := by
          rw [← heq]
          exact hin
        rcases popped i hilt hin with hf | ⟨w', ws', hpc⟩
        · refine Or.inl ?_
          show ((s.attempts ++ _).getD i defaultAttempt).finished = true
          rw [heq]
          exact hf
        · simp at hpc
      · have hlen : i < s.attempts.length + 1 := by
          simpa using hi
        have hieq : i = s.attempts.length := by omega
        subst hieq
        have heq : (s.attempts ++ [(⟨mkSubdomain cfg w, false, true⟩ : Attempt)]).getD
            s.attempts.length defaultAttempt = ⟨mkSubdomain cfg w, false, true⟩ :=
          getD_concat_self _ _ _
        replace hin : (⟨mkSubdomain cfg w, false, true⟩ : Attempt).inSet = false := by
          rw [← heq]
          exact hin
        simp at hin
    · intro hterm
      simp at hterm
    · simp [flag_iff]
    · intro hmid
      simp [pcMid] at hmid
    · intro _
      show (s.attempts ++ [(⟨mkSubdomain cfg w, false, true⟩ : Attempt)]).length = s.count + 1
      simp only [List.length_append, List.length_singleton]
      omega
    · exact fun _ => ev_no (by simp)
    · intro hd
      simp at hd
  | popThread t w ws h hgt ht hin =>
    rw [h] at ts_le ts_limit popped terminal flag_iff count_eq count_mid ev_no ev_done
    simp at flag_iff
    have hts : threadSetSize s ≤ cfg.thread_limit + 1 := ts_limit w ws rfl
    have hpop : (popAttempt s t).countP (fun a => a.inSet) + 1 = threadSetSize s :=
      threadSetSize_pop s ht hin
    refine ⟨?_, ?_, ?_, ?_, ?_, ?_, ?_, ?_, ?_⟩
    · intro _
      show (popAttempt s t).countP (fun a => a.inSet) ≤ cfg.thread_limit
      omega
    · intro w' ws' hne
      simp at hne
    · intro i hi hin'
      by_cases hit : i = t
      · subst hit
        exact Or.inr ⟨w, ws, rfl⟩
      · have hlen : i < s.attempts.length := by
          simpa [popAttempt, List.length_set] using hi
        have heq : (popAttempt s t).getD i defaultAttempt = attemptAt s i :=
          getD_set_ne _ _ _ (fun he => hit he.symm)
        replace hin' : (attemptAt s i).inSet = false := by
          rw [← heq]
          exact hin'
        rcases popped i hlen hin' with hf | ⟨w', ws', hpc⟩
        · refine Or.inl ?_
          show ((popAttempt s t).getD i defaultAttempt).finished = true
          rw [heq]
          exact hf
        · simp at hpc
    · intro hterm
      simp at hterm
    · simp [flag_iff]
    · intro hmid
      simp [pcMid] at hmid
    · intro _
      show (popAttempt s t).length = s.count + 1
      rw [popAttempt, List.length_set]
      exact count_mid rfl
    · exact fun _ => ev_no (by simp)
    · intro hd
      simp at hd
  | limitJoined t w ws h hfin =>
    rw [h] at ts_le ts_limit popped terminal flag_iff count_eq count_mid ev_no ev_done
    simp at flag_iff
    refine ⟨?_, ?_, ?_, ?_, ?_, ?_, ?_, ?_, ?_⟩
    · intro hne
      exact absurd rfl (hne w ws)
    · intro w' ws' _
      exact Nat.le_succ_of_le (ts_le (by simp))
    · intro i hi hin
      rcases popped i hi hin with hf | ⟨w', ws', hpc⟩
      · exact Or.inl hf
      · injection hpc with h1 h2 h3
        subst h1
        exact Or.inl hfin
    · intro hterm
      simp at hterm
    · simp [flag_iff]
    · intro hmid
      simp [pcMid] at hmid
    · intro _
      exact count_mid rfl
    · exact fun _ => ev_no (by simp)
    · intro hd
      simp at hd
  | limitDone w ws h hle =>
    rw [h] at ts_le ts_limit popped terminal flag_iff count_eq count_mid ev_no ev_done
    simp at flag_iff
    refine ⟨?_, ?_, ?_, ?_, ?_, ?_, ?_, ?_, ?_⟩
    · exact fun _ => hle
    · intro w' ws' hne
      simp at hne
    · intro i hi hin
      rcases popped i hi hin with hf | ⟨w', ws', hpc⟩
      · exact Or.inl hf
      · simp at hpc
    · intro hterm
      simp at hterm
    · simp [flag_iff]
    · intro hmid
      simp [pcMid] at hmid
    · intro _
      exact count_mid rfl
    · exact fun _ => ev_no (by simp)
    · intro hd
      simp at hd
  | recordStep w ws h =>
    rw [h] at ts_le ts_limit popped terminal flag_iff count_eq count_mid ev_no ev_done
    simp at flag_iff
    have hcm : s.attempts.length = s.count + 1 := count_mid rfl
    refine ⟨?_, ?_, ?_, ?_, ?_, ?_, ?_, ?_, ?_⟩
    · exact fun _ => ts_le (by simp)
    · intro w' ws' hne
      cases ws <;> simp [nextIterPC] at hne
    · intro i hi hin
      rcases popped i hi hin with hf | ⟨w', ws', hpc⟩
      · exact Or.inl hf
      · simp at hpc
    · intro hterm
      cases ws <;> simp [nextIterPC] at hterm
    · cases ws <;> simp [nextIterPC, flag_iff]
    · intro _
      show s.count + 1 = s.attempts.length
      omega
    · intro hmid
      cases ws <;> simp [nextIterPC, pcMid] at hmid
    · intro _ e he
      refine ev_no ?_ e he
      simp
    · intro hd
      cases ws <;> simp [nextIterPC] at hd
  | drainDone h hall =>
    rw [h] at ts_le ts_limit popped terminal flag_iff count_eq count_mid ev_no ev_done
    simp at flag_iff
    refine ⟨?_, ?_, ?_, ?_, ?_, ?_, ?_, ?_, ?_⟩
    · exact fun _ => ts_le (by simp)
    · intro w' ws' hne
      simp at hne
    · intro i hi hin
      rcases popped i hi hin with hf | ⟨w', ws', hpc⟩
      · exact Or.inl hf
      · simp at hpc
    · intro _ a ha
      obtain ⟨n, hn, rfl⟩ := List.mem_iff_getElem.mp ha
      by_cases hset : (s.attempts[n]).inSet = true
      · exact hall _ (List.getElem_mem hn) hset
      · have hin : (attemptAt s n).inSet = false := by
          rw [attemptAt, List.getD_eq_getElem _ _ hn]
          simpa using hset
        rcases popped n hn hin with hf | ⟨w', ws', hpc⟩
        · rw [attemptAt, List.getD_eq_getElem _ _ hn] at hf
          exact hf
        · simp at hpc
    · simp [flag_iff]
    · intro _
      exact count_eq rfl
    · intro hmid
      simp [pcMid] at hmid
    · exact fun _ => ev_no (by simp)
    · intro hd
      simp at hd
  | setFlagStep h =>
    rw [h] at ts_le ts_limit popped terminal flag_iff count_eq count_mid ev_no ev_done
    refine ⟨?_, ?_, ?_, ?_, ?_, ?_, ?_, ?_, ?_⟩
    · exact fun _ => ts_le (by simp)
    · intro w' ws' hne
      simp at hne
    · intro i hi hin
      rcases popped i hi hin with hf | ⟨w', ws', hpc⟩
      · exact Or.inl hf
      · simp at hpc
    · exact fun _ => terminal (Or.inl rfl)
    · simp
    · intro _
      exact count_eq rfl
    · intro hmid
      simp [pcMid] at hmid
    · exact fun _ => ev_no (by simp)
    · intro hd
      simp at hd
  | callbackStep h =>
    rw [h] at ts_le ts_limit popped terminal flag_iff count_eq count_mid ev_no ev_done
    have hflag : s.flag = true := flag_iff.mpr (Or.inl rfl)
    refine ⟨?_, ?_, ?_, ?_, ?_, ?_, ?_, ?_, ?_⟩
    · exact fun _ => ts_le (by simp)
    · intro w' ws' hne
      simp at hne
    · intro i hi hin
      rcases popped i hi hin with hf | ⟨w', ws', hpc⟩
      · exact Or.inl hf
      · simp at hpc
    · exact fun _ => terminal (Or.inr (Or.inl rfl))
    · simp [hflag]
    · intro _
      exact count_eq rfl
    · intro hmid
      simp [pcMid] at hmid
    · intro hd
      exact absurd rfl hd
    · intro _
      exact ⟨s.events, rfl, ev_no (by simp)⟩
  | finishStep i hi hfi =>
    refine ⟨?_, ?_, ?_, ?_, ?_, ?_, ?_, ?_, ?_⟩
    · intro hne
      rw [threadSetSize_finish cfg s hi]
      exact ts_le hne
    · intro w' ws' hpc
      rw [threadSetSize_finish cfg s hi]
      exact ts_limit w' ws' hpc
    · intro j hj hjin
      by_cases hij : j = i
      · subst hij
        refine Or.inl ?_
        show ((s.attempts.set j _).getD j defaultAttempt).finished = true
        rw [getD_set_self _ _ _ _ hi]
      · have hlen : j < s.attempts.length := by
          simpa [finishAttempt, List.length_set] using hj
        have heq : (s.attempts.set i { attemptAt s i with finished := true }).getD j
            defaultAttempt = attemptAt s j := getD_set_ne _ _ _ (fun he => hij he.symm)
        replace hjin : (attemptAt s j).inSet = false := by
          rw [← heq]
          exact hjin
        rcases popped j hlen hjin with hf | hex
        · refine Or.inl ?_
          show ((s.attempts.set i _).getD j defaultAttempt).finished = true
          rw [heq]
          exact hf
        · exact Or.inr hex
    · intro hterm a ha
      replace ha : a ∈ s.attempts.set i { attemptAt s i with finished := true } := ha
      rcases List.mem_or_eq_of_mem_set ha with h' | rfl
      · exact terminal hterm a h'
      · rfl
    · exact flag_iff
    · intro hm
      have := count_eq hm
      show s.count = (s.attempts.set i _).length
      rw [List.length_set]
      exact this
    · intro hm
      have := count_mid hm
      show (s.attempts.set i _).length = s.count + 1
      rw [List.length_set]
      exact this
    · intro hnd e he
      replace he : e ∈ s.events ++ (check_domain cfg.ex (s.found, []) (attemptAt s i).word).2.map
          Event.foundNotif := he
      rw [List.mem_append] at he
      rcases he with he | he
      · exact ev_no hnd e he
      · rw [List.mem_map] at he
        obtain ⟨d, -, rfl⟩ := he
        exact ⟨d, rfl⟩
    · intro hd
      have hallfin := terminal (Or.inr (Or.inr hd))
      have hmem : attemptAt s i ∈ s.attempts := by
        rw [attemptAt, List.getD_eq_getElem _ _ hi]
        exact List.getElem_mem hi
      have := hallfin _ hmem
      rw [hfi] at this
      cases this

theorem inv_reach {cfg : EngineConfig} {words : List String} {s : EngineState}
    (h : Reach cfg words s) : EngineInv cfg s := by
  induction h with
  | init => exact inv_init cfg words
  | step hr hs ih => exact inv_step ih hs

theorem attemptAt_eq_getElem (s : EngineState) {i : Nat} (h : i < s.attempts.length) :
    attemptAt s i = s.attempts[i] :=
  List.getD_eq_getElem _ _ h

theorem unfinished_inSet {cfg : EngineConfig} {s : EngineState} (inv : EngineInv cfg s)
    {i : Nat} (hi : i < s.attempts.length) (hf : (s.attempts[i]).finished = false)
    (hnj : ∀ w ws, s.pc ≠ PC.limitJoin i w ws) : (s.attempts[i]).inSet = true := by
  by_contra hq
  have hin : (attemptAt s i).inSet = false := by
    rw [attemptAt_eq_getElem s hi]
    simpa using hq
  rcases inv.popped i hi hin with hfin | ⟨w, ws, hpc⟩
  · rw [attemptAt_eq_getElem s hi, hf] at hfin
    cases hfin
  · exact hnj w ws hpc

theorem inFlight_le_threadSetSize {cfg : EngineConfig} {s : EngineState}
    (inv : EngineInv cfg s) (hnj : ∀ t w ws, s.pc ≠ PC.limitJoin t w ws) :
    inFlight s ≤ threadSetSize s := by
  apply countP_le_of_forall_index
  intro i hilt hp
  have hfin : (s.attempts[i]).finished = false := by
    simpa using hp
  have := unfinished_inSet inv hilt hfin (fun w ws => hnj i w ws)
  simpa using this

theorem reach_inFlight_le {cfg : EngineConfig} {words : List String} {s : EngineState}
    (h : Reach cfg words s) : inFlight s ≤ cfg.thread_limit + 1 := by
  have inv := inv_reach h
  by_cases hjoin : ∃ t w ws, s.pc = PC.limitJoin t w ws
  · obtain ⟨t, w, ws, hpc⟩ := hjoin
    have h1 : inFlight s ≤ threadSetSize s + 1 := by
      apply countP_le_of_forall_index_except _ _ _ t
      intro i hilt hne hp
      have hfin : (s.attempts[i]).finished = false := by
        simpa using hp
      have := unfinished_inSet inv hilt hfin (fun w' ws' hpc' => by
        rw [hpc] at hpc'
        injection hpc' with h1 h2 h3
        exact hne h1.symm)
      simpa using this
    have h2 : threadSetSize s ≤ cfg.thread_limit := inv.ts_le (by rw [hpc]; simp)
    omega
  · push_neg at hjoin
    have h1 := inFlight_le_threadSetSize inv hjoin
    by_cases hlim : ∃ w ws, s.pc = PC.limit w ws
    · obtain ⟨w, ws, hpc⟩ := hlim
      have := inv.ts_limit w ws hpc
      omega
    · push_neg at hlim
      have := inv.ts_le hlim
      omega


/-! ## Concrete runs -/

/-- The dispatcher reaches `c4State` by passing the gate and starting the
first candidate's thread. -/
theorem c4_reach : Reach cfgNone ["maps"] c4State := by
  have h1 := @Reach.init cfgNone ["maps"]
  have h2 := Reach.step h1 (Step.envHealth _ true)
  have h3 := Reach.step h2 (Step.gatePass _ ("maps") [] rfl rfl)
  have h4 := Reach.step h3 (Step.startThread _ ("maps") [] rfl)
  exact h4

/-- A `thread_limit = 1` run reaches `c2State`, with both attempts still
running. -/
theorem c2_reach : Reach cfgTwo ["a", "b"] c2State := by
  have h1 := @Reach.init cfgTwo ["a", "b"]
  have h2 := Reach.step h1 (Step.envHealth _ true)
  have h3 := Reach.step h2 (Step.gatePass _ ("a") ["b"] rfl rfl)
  have h4 := Reach.step h3 (Step.startThread _ ("a") ["b"] rfl)
  have h5 := Reach.step h4 (Step.limitDone _ ("a") ["b"] rfl (by decide))
  have h6 := Reach.step h5 (Step.recordStep _ ("a") ["b"] rfl)
  have h7 := Reach.step h6 (Step.gatePass _ ("b") [] rfl rfl)
  have h8 := Reach.step h7 (Step.startThread _ ("b") [] rfl)
  exact h8

/-- A complete run of one resolving candidate reaches the terminal state
`c1Done`. -/
theorem c1_reach : Reach cfgAll ["maps"] c1Done := by
  have h1 := @Reach.init cfgAll ["maps"]
  have h2 := Reach.step h1 (Step.envHealth _ true)
  have h3 := Reach.step h2 (Step.gatePass _ ("maps") [] rfl rfl)
  have h4 := Reach.step h3 (Step.startThread _ ("maps") [] rfl)
  have h5 := Reach.step h4 (Step.finishStep _ 0 (by decide) (by decide))
  have h6 := Reach.step h5 (Step.limitDone _ ("maps") [] rfl (by decide))
  have h7 := Reach.step h6 (Step.recordStep _ ("maps") [] rfl)
  have h8 := Reach.step h7 (Step.drainDone _ rfl (by decide))
  have h9 := Reach.step h8 (Step.setFlagStep _ rfl)
  have h10 := Reach.step h9 (Step.callbackStep _ rfl)
  exact h10

/-- The gate can be passed while healthy and the health can then be
cleared by `dns_checker` before the dispatch happens. -/
theorem c5_reach : Reach cfgNone ["maps"] c5Unhealthy := by
  have h1 := @Reach.init cfgNone ["maps"]
  have h2 := Reach.step h1 (Step.envHealth _ true)
  have h3 := Reach.step h2 (Step.gatePass _ ("maps") [] rfl rfl)
  have h4 := Reach.step h3 (Step.envHealth _ false)
  exact h4

/-! ## Claim C1 — completion barrier -/

/-- Claim C1: along any run, before the completion callback has fired no
`completed` event exists, and in any terminal state (`view.completed` has
returned) the completion flag is set, every dispatched attempt has
finished, and the event list consists of found-notifications followed by
exactly one `completed` event whose payload is the engine's (now final
and immutable) result set — so the callback fired exactly once, strictly
after every attempt finished and after the flag was set, and no
found-notification follows it. -/
theorem bruteforce_completion_barrier {cfg : EngineConfig} {words : List String}
    {s : EngineState} (h : Reach cfg words s) :
    (s.pc ≠ PC.done → ∀ e ∈ s.events, ∃ d, e = Event.foundNotif d) ∧
    (s.pc = PC.done →
      s.flag = true ∧ (∀ a ∈ s.attempts, a.finished = true) ∧
      ∃ pre, s.events = pre ++ [Event.completed s.found] ∧
        ∀ e ∈ pre, ∃ d, e = Event.foundNotif d) := by
  have inv := inv_reach h
  exact ⟨inv.ev_no, fun hd =>
    ⟨inv.flag_iff.mpr (Or.inr hd), inv.terminal (Or.inr (Or.inr hd)), inv.ev_done hd⟩⟩

/-- Witness for C1: the completed run `c1_reach`, evaluated at its
terminal state. -/
theorem bruteforce_completion_barrier_witness :
    c1Done.pc = PC.done ∧
    (c1Done.flag = true ∧ (∀ a ∈ c1Done.attempts, a.finished = true) ∧
      ∃ pre, c1Done.events = pre ++ [Event.completed c1Done.found] ∧
        ∀ e ∈ pre, ∃ d, e = Event.foundNotif d) :=
  ⟨rfl, (bruteforce_completion_barrier c1_reach).2 rfl⟩

/-! ## Claim C2 — the in-flight cap -/

/-- Counterexample to C2 as stated: with `thread_limit = 1` the run
`c2_reach` reaches a state with two simultaneously in-flight attempts.
The code starts the new checker thread (line 97) before `thread_limiter`
prunes (line 98), so the cap is exceeded by one. -/
theorem inFlight_exceeds_thread_limit :
    Reach cfgTwo ["a", "b"] c2State ∧ cfgTwo.thread_limit = 1 ∧ inFlight c2State = 2 :=
  ⟨c2_reach, rfl, rfl⟩

/-- Claim C2 (amended): in every reachable state of every run the number
of in-flight attempts is at most `thread_limit + 1`: the cap can be
overshot, but only by the single thread started before `thread_limiter`
runs. -/
theorem reach_inFlight_le_thread_limit_succ {cfg : EngineConfig} {words : List String}
    {s : EngineState} (h : Reach cfg words s) : inFlight s ≤ cfg.thread_limit + 1 :=
  reach_inFlight_le h

/-- Witness for the amended C2: the bound is attained with equality at
`c2State`. -/
theorem reach_inFlight_le_thread_limit_succ_witness :
    inFlight c2State ≤ cfgTwo.thread_limit + 1 :=
  reach_inFlight_le_thread_limit_succ c2_reach

/-! ## Claim C3 — recording a found candidate twice -/

/-- Counterexample to C3 as stated: checking the same resolving candidate
twice leaves the result set at one element but emits a second
`view.found_subdomain` notification — line 57 fires on every successful
check, not once per distinct candidate. -/
theorem check_domain_renotifies :
    (check_domain (fun _ => true)
        (check_domain (fun _ => true) (∅, []) ("maps.google.com"))
        ("maps.google.com")).1.card = 1 ∧
    (check_domain (fun _ => true)
        (check_domain (fun _ => true) (∅, []) ("maps.google.com"))
        ("maps.google.com")).2.length = 2 := by
  constructor <;> rfl

/-- Claim C3 (amended): a second `check_domain` call on a candidate that
resolves leaves the result-set size unchanged (set insertion is
idempotent) but invokes the observer's found callback again: the view is
notified once per successful check, not once per distinct candidate. -/
theorem check_domain_second_call (ex : String → Bool) (st : Finset String × List String)
    (d : String) (hex : ex d = true) :
    (check_domain ex (check_domain ex st d) d).1.card = (check_domain ex st d).1.card ∧
    (check_domain ex (check_domain ex st d) d).2.length
      = (check_domain ex st d).2.length + 1 := by
  constructor
  · simp [check_domain, hex, Finset.insert_idem]
  · simp [check_domain, hex]

/-- Witness for the amended C3 at a concrete resolving candidate. -/
theorem check_domain_second_call_witness :
    (check_domain (fun _ => true)
        (check_domain (fun _ => true) (∅, []) ("maps.google.com"))
        ("maps.google.com")).1.card
      = (check_domain (fun _ => true) (∅, []) ("maps.google.com")).1.card ∧
    (check_domain (fun _ => true)
        (check_domain (fun _ => true) (∅, []) ("maps.google.com"))
        ("maps.google.com")).2.length
      = (check_domain (fun _ => true) (∅, []) ("maps.google.com")).2.length + 1 :=
  check_domain_second_call (fun _ => true) _ ("maps.google.com") rfl

/-! ## Claim C4 — checked count versus dispatches -/

/-- Counterexample to C4 as stated: right after the first candidate is
dispatched (its thread started, line 97), the counter is still zero —
the increment (line 101) happens after the dispatch, not before it. -/
theorem checked_count_lags_dispatch :
    Reach cfgNone ["maps"] c4State ∧ dispatchedCount c4State = 1 ∧ c4State.count = 0 :=
  ⟨c4_reach, rfl, rfl⟩

/-- Claim C4 (amended): `checked_subdomains_count` is incremented after
each dispatch, within the same loop iteration: in every reachable state
the count is between `dispatched - 1` and `dispatched`, it equals the
number of dispatched candidates exactly when the dispatcher is not
between a dispatch (line 97) and its increment (line 101), and this holds
regardless of the completion order of the concurrent attempts. -/
theorem checked_count_tracks_dispatch {cfg : EngineConfig} {words : List String}
    {s : EngineState} (h : Reach cfg words s) :
    s.count ≤ dispatchedCount s ∧ dispatchedCount s ≤ s.count + 1 ∧
    (pcMid s.pc = false → s.count = dispatchedCount s) ∧
    (pcMid s.pc = true → dispatchedCount s = s.count + 1) := by
  have inv := inv_reach h
  cases hb : pcMid s.pc with
  | false =>
    have he : s.count = dispatchedCount s := inv.count_eq hb
    refine ⟨by omega, by omega, fun _ => he, fun hc => ?_⟩
    cases hc
  | true =>
    have hm : dispatchedCount s = s.count + 1 := inv.count_mid hb
    refine ⟨by omega, by omega, fun hc => ?_, fun _ => hm⟩
    cases hc

/-- Witness for the amended C4 at the mid-iteration state `c4State`. -/
theorem checked_count_tracks_dispatch_witness :
    c4State.count ≤ dispatchedCount c4State ∧
    dispatchedCount c4State ≤ c4State.count + 1 ∧
    (pcMid c4State.pc = false → c4State.count = dispatchedCount c4State) ∧
    (pcMid c4State.pc = true → dispatchedCount c4State = c4State.count + 1) :=
  checked_count_tracks_dispatch c4_reach

/-! ## Claim C5 — health gating of dispatch -/

/-- Counterexample to C5 as stated: from the reachable state
`c5Unhealthy` — the dispatcher passed `dns_working.wait()` while healthy,
then `dns_checker` cleared the event — the dispatch step still happens
while the health state is UNHEALTHY, increasing the number of dispatched
candidates. -/
theorem dispatch_while_unhealthy :
    Reach cfgNone ["maps"] c5Unhealthy ∧ c5Unhealthy.health = false ∧
    Step cfgNone c5Unhealthy Label.startThread c5After ∧
    dispatchedCount c5After = dispatchedCount c5Unhealthy + 1 :=
  ⟨c5_reach, rfl, Step.startThread _ ("maps") [] rfl, rfl⟩

/-- Claim C5 (amended): the gate step of the dispatcher —
`dns_working.wait()` returning — happens only while the health state is
HEALTHY, and while the dispatcher is blocked at the gate with the health
state UNHEALTHY no step dispatches a candidate, increments the counter,
or advances the dispatcher; only a candidate whose gate check already
passed can still be dispatched and counted after the health state turns
UNHEALTHY. -/
theorem gate_blocks_while_unhealthy :
    (∀ (cfg : EngineConfig) (s s' : EngineState),
      Step cfg s Label.gatePass s' → s.health = true) ∧
    (∀ (cfg : EngineConfig) (s s' : EngineState) (l : Label) (w : String)
      (ws : List String), s.pc = PC.gate w ws → s.health = false → Step cfg s l s' →
      s'.pc = PC.gate w ws ∧ s'.count = s.count ∧
      dispatchedCount s' = dispatchedCount s) := by
  constructor
  · intro cfg s s' hstep
    cases hstep with
    | gatePass w ws h hh => exact hh
  · intro cfg s s' l w ws hpc hun hstep
    cases hstep with
    | envHealth b => exact ⟨hpc, rfl, rfl⟩
    | gatePass w2 ws2 h hh => rw [hun] at hh; cases hh
    | startThread w2 ws2 h => rw [hpc] at h; cases h
    | popThread t w2 ws2 h h2 h3 h4 => rw [hpc] at h; cases h
    | limitJoined t w2 ws2 h h2 => rw [hpc] at h; cases h
    | limitDone w2 ws2 h h2 => rw [hpc] at h; cases h
    | recordStep w2 ws2 h => rw [hpc] at h; cases h
    | drainDone h h2 => rw [hpc] at h; cases h
    | setFlagStep h => rw [hpc] at h; cases h
    | callbackStep h => rw [hpc] at h; cases h
    | finishStep i hi hf =>
      refine ⟨hpc, rfl, ?_⟩
      show (s.attempts.set i _).length = s.attempts.length
      rw [List.length_set]

/-- Witness for the amended C5: at the initial state of a run (gate
position, health UNHEALTHY) a health flip by `dns_checker` leaves the
dispatcher, the counter and the dispatch count unchanged. -/
theorem gate_blocks_while_unhealthy_witness :
    ({ initState ["maps"] with health := true } : EngineState).pc = PC.gate ("maps") [] ∧
    ({ initState ["maps"] with health := true } : EngineState).count
      = (initState ["maps"]).count ∧
    dispatchedCount ({ initState ["maps"] with health := true } : EngineState)
      = dispatchedCount (initState ["maps"]) :=
  gate_blocks_while_unhealthy.2 cfgNone (initState ["maps"]) _ (Label.envHealth true)
    ("maps") [] rfl rfl (Step.envHealth _ true)

/-! ## Claim C6 — candidate generation -/

/-- Claim C6: over the 26 lowercase letters with length 3 the generator
yields exactly 17,576 strings, strictly increasing in lexicographic
order, beginning `aaa`, `aab`, `aac`; with resume string `b` it yields
exactly 16,900 strings; with resume string `fjl` it yields `fjl`, `fjm`,
`fjn`, … in order, and membership is exactly: three characters, each
ranging from its resume character to the alphabet's end. -/
theorem generate_word_spec :
    (∃ l, generate_word 3 = Except.ok l ∧ l.length = 17576 ∧
      l.Pairwise (· < ·) ∧ l.take 3 = ["aaa", "aab", "aac"]) ∧
    (∃ l, generate_word 3 "b" = Except.ok l ∧ l.length = 16900) ∧
    (∃ l, generate_word 3 "fjl" = Except.ok l ∧
      l.Pairwise (· < ·) ∧ l.take 3 = ["fjl", "fjm", "fjn"] ∧
      (∀ w : String, w ∈ l ↔ List.Forall₂ (· ∈ ·) w.toList
        ["fghijklmnopqrstuvwxyz".toList, "jklmnopqrstuvwxyz".toList,
         "lmnopqrstuvwxyz".toList])) := by
  refine ⟨⟨_, rfl, ?_, ?_, ?_⟩, ⟨_, rfl, ?_⟩, ⟨_, rfl, ?_, ?_, ?_⟩⟩
  · show ((itertoolsProduct _).map _).length = 17576
    rw [List.length_map, itertoolsProduct_length]
    rfl
  · exact List.Pairwise.map _ (fun a b hab => mk_lt_mk_of_lex hab)
      (itertoolsProduct_sorted _ (by
        intro xs hxs
        have hx : xs = ascii_lowercase.toList ∨ xs = ascii_lowercase.toList ∨
            xs = ascii_lowercase.toList := by simpa using hxs
        rcases hx with rfl | rfl | rfl <;> exact ascii_sorted))
  · rfl
  · show ((itertoolsProduct _).map _).length = 16900
    rw [List.length_map, itertoolsProduct_length]
    rfl
  · exact List.Pairwise.map _ (fun a b hab => mk_lt_mk_of_lex hab)
      (itertoolsProduct_sorted _ (by
        intro xs hxs
        have hx : xs = ascii_lowercase.toList.drop 5 ∨
            xs = ascii_lowercase.toList.drop 9 ∨
            xs = ascii_lowercase.toList.drop 11 := by simpa using hxs
        rcases hx with rfl | rfl | rfl <;> exact pairwise_drop ascii_sorted))
  · rfl
  · intro w
    constructor
    · intro hw
      rw [List.mem_map] at hw
      obtain ⟨comb, hcomb, rfl⟩ := hw
      have := mem_itertoolsProduct.mp hcomb
      simpa using this
    · intro hw
      rw [List.mem_map]
      refine ⟨w.toList, ?_, rfl⟩
      rw [mem_itertoolsProduct]
      simpa using hw

/-! ## Claim C7 — malformed resume strings -/

/-- Claim C7: a resume string containing, at a position the generator
constrains, a character absent from the alphabet makes `generate_word`
raise at call time (the uncaught `ValueError` from `alphabet.index`), so
no candidate sequence exists — in `main` this happens before the engine
is constructed, hence before any resolution work and with no candidate
dispatched. -/
theorem generate_word_malformed_error (letter_count : Nat) (start_from alphabet : String)
    (i : Nat) (hi : i < letter_count) (hil : i < start_from.toList.length)
    (hmem : start_from.toList.get ⟨i, hil⟩ ∉ alphabet.toList) :
    (∃ c, generate_word letter_count start_from alphabet = Except.error c) ∧
    ∀ l, generate_word letter_count start_from alphabet ≠ Except.ok l := by
  have herr : ∃ e, genLetters letter_count start_from.toList alphabet.toList
      = Except.error e := by
    apply mapM_error
    refine ⟨i, by simpa using hi, ?_⟩
    intro b
    simp only [genLetters, dif_pos hil]
    rw [strIndex_eq_none hmem]
    simp
  obtain ⟨e, he⟩ := herr
  have he2 : genLetters letter_count start_from.data alphabet.data = Except.error e := he
  have hres : generate_word letter_count start_from alphabet = Except.error e := by
    simp [generate_word, String.toList, he2, Except.map]
  refine ⟨⟨e, hres⟩, fun l hl => ?_⟩
  rw [hres] at hl
  cases hl

/-- Witness for C7: resume string `a?c` whose second character is not a
lowercase letter. -/
theorem generate_word_malformed_error_witness :
    (∃ c, generate_word 3 ("a?c") ascii_lowercase = Except.error c) ∧
    ∀ l, generate_word 3 ("a?c") ascii_lowercase ≠ Except.ok l :=
  generate_word_malformed_error 3 ("a?c") ascii_lowercase 1 (by decide) (by decide)
    (by decide)

/-! ## Claim C8 — the file word source -/

/-- Claim C8: on a file with lines `Lorem`, `ipsum`, `dolor`, `sit`,
`amet`, the source with resume marker `dolor` yields exactly `dolor`,
`sit`, `amet` (the match included), and with no marker all five lines,
whitespace-trimmed, in file order. -/
theorem get_words_from_file_spec :
    get_words_from_file ["Lorem\n", "ipsum\n", "dolor\n", "sit\n", "amet"]
        (some ("dolor")) = ["dolor", "sit", "amet"] ∧
    get_words_from_file ["Lorem\n", "ipsum\n", "dolor\n", "sit\n", "amet"] none
      = ["Lorem", "ipsum", "dolor", "sit", "amet"] := by
  constructor <;> rfl

/-! ## Claim C9 — the status snapshot division -/

/-- Counterexample to C9 as stated: a status produced at elapsed time
zero — possible when the snapshot is read within the clock granule of
engine construction — fails with `ZeroDivisionError`: line 154 has no
guard. -/
theorem current_status_div_zero :
    current_status 0 none 0 0 = Except.error PyError.zeroDivisionError := by
  rfl

/-- Claim C9 (amended): `current_status` divides `checked_count` by the
elapsed seconds with no zero guard; it fails with `ZeroDivisionError`
exactly when the elapsed time is zero, and succeeds on every state whose
elapsed time is nonzero. -/
theorem current_status_ok_of_elapsed_ne_zero (count : ℕ) (latest : Option String)
    (threads : ℕ) (elapsed : ℚ) (h : elapsed ≠ 0) :
    current_status count latest threads elapsed =
      Except.ok { time := elapsed, latest := latest, count := count,
                  rate := pyRound ((count : ℚ) / elapsed), threads := threads } := by
  simp [current_status, pyDiv, h, Except.map]

/-- Witness for the amended C9 at a concrete nonzero elapsed time. -/
theorem current_status_ok_of_elapsed_ne_zero_witness :
    current_status 120 (some ("maps.example.com")) 3 60 =
      Except.ok { time := 60, latest := some ("maps.example.com"), count := 120,
                  rate := pyRound ((120 : ℚ) / 60), threads := 3 } :=
  current_status_ok_of_elapsed_ne_zero 120 (some ("maps.example.com")) 3 60 (by norm_num)

/-! ## Claim C10 — a resume marker that never matches -/

/-- The loop yields nothing when the flag can never be raised. -/
theorem get_words_loop_no_match (marker : String) (lines : List String)
    (h : ∀ l ∈ lines, pyStrip l ≠ marker) :
    get_words_loop (some marker) lines false = [] := by
  induction lines with
  | nil => rfl
  | cons line rest ih =>
    have hl : pyStrip line ≠ marker := h line (List.mem_cons_self _ _)
    have ih2 := ih (fun l hl2 => h l (List.mem_cons_of_mem _ hl2))
    have hb : (pyStrip line == marker) = false := by
      simp [hl]
    simp [get_words_loop, hl, hb, ih2]

/-- Claim C10: when the resume marker matches no whitespace-trimmed line
of the file, the source yields the empty sequence — every line is
skipped and no error is reported. -/
theorem get_words_from_file_no_match_empty (lines : List String) (marker : String)
    (h : marker ∉ lines.map pyStrip) :
    get_words_from_file lines (some marker) = [] := by
  apply get_words_loop_no_match
  intro l hl he
  exact h (List.mem_map.mpr ⟨l, hl, he⟩)

/-- Witness for C10 on a concrete file and unmatched marker. -/
theorem get_words_from_file_no_match_empty_witness :
    get_words_from_file ["Lorem\n", "ipsum\n"] (some ("zzz")) = [] :=
  get_words_from_file_no_match_empty ["Lorem\n", "ipsum\n"] ("zzz") (by decide)
